import Mathlib

/-!
# Verification of the nREPL client (`src/main.rs`)

Shallow embedding of the protocol/transport core of the Rust nREPL client:
the bencode codec boundary, the incremental message reader
(`read_message_with_timeout`), the eval aggregation loop
(`eval_with_timeout`), and the session lifecycle operations
(`clone_session`, `close`).

Modelling conventions:
* Machine bytes and Rust byte strings (`Vec<u8>`) are `List Nat`; Rust
  `String`s on the wire are likewise byte lists, and
  `String::from_utf8_lossy` is modelled as the identity (every protocol
  constant involved is ASCII, where the lossy conversion is the identity).
* The blocking socket is modelled as a trace of read events (`RStep`);
  each loop iteration of the reader consumes one event.  A step records
  whether the read deadline had fired at the top of that iteration
  (`tfired`) and what `TcpStream::read` returned.
* Fallible operations return `Option` / `Except` / explicit result
  inductives.
* The bencode codec lives in the external `serde_bencode` crate, whose
  sources are not part of this repository; its definitions below are
  modelled from the spec (§4.2, §6: standard self-delimiting bencode) and
  from the crate's documented `from_bytes` behaviour (parse one complete
  value from the front of the buffer, ignore trailing bytes).
-/

/-! ## Decimal digits (used by the bencode codec for lengths and integers) -/

/-- Base-10 digit characters of `n`, most significant first, as ASCII codes.
Fuel-recursive so that it reduces definitionally; `natDigits` always supplies
enough fuel. -/
def natDigitsAux : Nat → Nat → List Nat
  | 0, _ => []
  | fuel+1, n => if n < 10 then [48 + n] else natDigitsAux fuel (n / 10) ++ [48 + n % 10]

/-- The ASCII decimal representation of `n` (e.g. `natDigits 12 = [49, 50]`). -/
def natDigits (n : Nat) : List Nat := natDigitsAux (n+1) n

/-- Munch a maximal run of ASCII digits, accumulating their value onto `acc`,
and return the value together with the unconsumed remainder. -/
def parseDigitsAux : List Nat → Nat → Nat × List Nat
  | c :: rest, acc =>
    if 48 ≤ c ∧ c ≤ 57 then parseDigitsAux rest (acc * 10 + (c - 48)) else (acc, c :: rest)
  | [], acc => (acc, [])

/-- Parse a nonempty run of ASCII digits from the front of the input as a
decimal number; fails if the input does not start with a digit. -/
def parseNatFrom : List Nat → Option (Nat × List Nat)
  | c :: rest => if 48 ≤ c ∧ c ≤ 57 then some (parseDigitsAux rest (c - 48)) else none
  | [] => none

/-! ## Bencode values and codec

`BValue` mirrors `serde_bencode::value::Value`: byte strings, 64-bit
integers (modelled as unbounded `Int`), lists, and dictionaries
(`HashMap<Vec<u8>, Value>`, modelled as association lists; a `HashMap` is
represented by any association list enumerating its entries). -/

/-- Modelled from the spec: the value type of the external `serde_bencode`
crate (`serde_bencode::value::Value`) — mappings of byte-string keys to
byte-string/integer/list/mapping values (spec §3 "Message", §6). -/
inductive BValue : Type where
  | bytes : List Nat → BValue
  | int : Int → BValue
  | list : List BValue → BValue
  | dict : List (List Nat × BValue) → BValue

/-- A decoded protocol message: what the Rust code types as
`HashMap<String, serde_bencode::value::Value>`, modelled as an association
list from key bytes to values. -/
abbrev Msg := List (List Nat × BValue)

/-- Modelled from the spec: bencode byte-string serialization of the external
`serde_bencode` crate — decimal length, `':'` (58), then the raw bytes. -/
def encBytes (b : List Nat) : List Nat := natDigits b.length ++ 58 :: b

/-- Modelled from the spec: bencode integer serialization of the external
`serde_bencode` crate — `'i'` (105), optional `'-'` (45), decimal digits,
`'e'` (101). -/
def encInt (i : Int) : List Nat :=
  105 :: (if i < 0 then 45 :: natDigits i.natAbs else natDigits i.toNat) ++ [101]

mutual

/-- Modelled from the spec: deterministic bencode serialization of a value by
the external `serde_bencode` crate (spec §4.2 `encode`).  Lists are `'l'`
(108) … `'e'` (101); dictionaries are `'d'` (100) … `'e'` (101) with entries
emitted in the stored (canonical) order. -/
def encodeVal : BValue → List Nat
  | .bytes b => encBytes b
  | .int i => encInt i
  | .list l => 108 :: encodeElemsE l ++ [101]
  | .dict d => 100 :: encodePairsE d ++ [101]

/-- Serialization of the elements of a bencode list, in order. -/
def encodeElemsE : List BValue → List Nat
  | [] => []
  | v :: vs => encodeVal v ++ encodeElemsE vs

/-- Serialization of the entries of a bencode dictionary, in order: each key
as a byte string followed by its value. -/
def encodePairsE : List (List Nat × BValue) → List Nat
  | [] => []
  | (k, v) :: ps => encBytes k ++ encodeVal v ++ encodePairsE ps

end

/-- Modelled from the spec: serialization of an outgoing message
(`serde_bencode::to_bytes` on a `HashMap<String, Value>`, as called by
`send_message`): the message is one bencode dictionary. -/
def encodeMsg (m : Msg) : List Nat := encodeVal (.dict m)

/-- Parse one bencode byte string (decimal length, `':'`, payload) from the
front of the input. -/
def parseBytes (input : List Nat) : Option (List Nat × List Nat) :=
  match parseNatFrom input with
  | some (len, r) =>
    (match r with
     | 58 :: r2 => if len ≤ r2.length then some (r2.take len, r2.drop len) else none
     | _ => none)
  | none => none

mutual

/-- Modelled from the spec: bencode decoding of one complete self-delimited
value from the front of a buffer by the external `serde_bencode` crate
(spec §4.2 `decode`), returning the value and the unconsumed remainder.
Fuel-indexed so that it reduces definitionally; `from_bytes` supplies
sufficient fuel. -/
def decodeVal : Nat → List Nat → Option (BValue × List Nat)
  | 0, _ => none
  | _+1, [] => none
  | f+1, c :: rest =>
    if c = 105 then
      (match rest with
       | [] => none
       | c0 :: r =>
         if c0 = 45 then
           (match parseNatFrom r with
            | some (n, r2) =>
              (match r2 with
               | 101 :: r3 => some (.int (-(n : Int)), r3)
               | _ => none)
            | none => none)
         else
           (match parseNatFrom (c0 :: r) with
            | some (n, r2) =>
              (match r2 with
               | 101 :: r3 => some (.int (n : Int), r3)
               | _ => none)
            | none => none))
    else if c = 108 then
      (match decodeElemsD f rest with
       | some (l, r) => some (.list l, r)
       | none => none)
    else if c = 100 then
      (match decodePairsD f rest with
       | some (d, r) => some (.dict d, r)
       | none => none)
    else if 48 ≤ c ∧ c ≤ 57 then
      (match parseBytes (c :: rest) with
       | some (b, r) => some (.bytes b, r)
       | none => none)
    else none

/-- Decode the elements of a bencode list up to the closing `'e'`. -/
def decodeElemsD : Nat → List Nat → Option (List BValue × List Nat)
  | 0, _ => none
  | _+1, [] => none
  | f+1, c :: rest =>
    if c = 101 then some ([], rest)
    else
      match decodeVal f (c :: rest) with
      | some (v, r1) =>
        (match decodeElemsD f r1 with
         | some (vs, r2) => some (v :: vs, r2)
         | none => none)
      | none => none

/-- Decode the entries of a bencode dictionary (byte-string key, then value)
up to the closing `'e'`. -/
def decodePairsD : Nat → List Nat → Option (List (List Nat × BValue) × List Nat)
  | 0, _ => none
  | _+1, [] => none
  | f+1, c :: rest =>
    if c = 101 then some ([], rest)
    else
      match parseBytes (c :: rest) with
      | some (k, r1) =>
        (match decodeVal f r1 with
         | some (v, r2) =>
           (match decodePairsD f r2 with
            | some (ps, r3) => some ((k, v) :: ps, r3)
            | none => none)
         | none => none)
      | none => none

end

/-- Modelled from the spec: `serde_bencode::from_bytes::<HashMap<String,
Value>>`, as called by `read_message_with_timeout` — parse one complete
dictionary message from the front of the buffer, ignoring any trailing
bytes (the behaviour spec §4.3 warns about: anything left over after a
successful parse is not reported to the caller). -/
def from_bytes (input : List Nat) : Option Msg :=
  match input with
  | 100 :: rest =>
    (match decodePairsD input.length rest with
     | some (m, _) => some m
     | none => none)
  | _ => none

/-! ## Error taxonomy (`NreplError`, src/main.rs lines 31–38) -/

/-- The error taxonomy of the client (`enum NreplError`).  The payload of the
`IoError` variant (an `std::io::Error`) carries no information the claims
depend on and is dropped. -/
inductive NreplError : Type where
  | connectionClosed
  | timeout
  | parseError (msg : String)
  | ioError
  | other (msg : String)
deriving DecidableEq

/-! ## The incremental message reader (`read_message_with_timeout`,
src/main.rs lines 320–380)

Each loop iteration of the Rust reader first checks the read deadline, then
performs one `self.stream.read(&mut temp_buffer)`.  A trace of `RStep`s
supplies, per iteration, whether the deadline had fired and what the read
returned. -/

/-- What one `TcpStream::read` call returned: `okRead data` is `Ok(n)` with
the `n = data.length` bytes read (`Ok(0)` is `okRead []`); `errWouldBlock`
is `Err` of kind `WouldBlock`/`TimedOut`; `errClosed` is `Err` of kind
`UnexpectedEof`/`ConnectionAborted`/`ConnectionReset`; `errOther` is any
other error kind. -/
inductive ReadEv : Type where
  | okRead (data : List Nat)
  | errWouldBlock
  | errClosed
  | errOther
deriving DecidableEq

/-- One iteration of the reader loop: `tfired` is whether
`start_time.elapsed() > self.read_timeout` held at the top of the
iteration, `ev` is what the subsequent read returned. -/
structure RStep : Type where
  tfired : Bool
  ev : ReadEv
deriving DecidableEq

/-- Outcome of one `read_message_with_timeout` call on a trace: a decoded
message, an error, or `pending` when the supplied trace ran out while the
loop would still be reading (the blocking call has not returned yet).  The
unconsumed trace is returned so that successive calls can be chained. -/
inductive ReadRes : Type where
  | ok (m : Msg) (rest : List RStep)
  | err (e : NreplError) (rest : List RStep)
  | pending (buf : List Nat)

/-- The loop of `read_message_with_timeout` (src/main.rs lines 327–379),
threading the local `buffer` (which starts empty at every call — the
function has no state that survives a call). -/
def readMsgLoop : List RStep → List Nat → ReadRes
  | [], buf => .pending buf
  | s :: rest, buf =>
    if s.tfired then .err .timeout rest
    else
      match s.ev with
      | .okRead data =>
        if data.isEmpty then .err .connectionClosed rest
        else
          match from_bytes (buf ++ data) with
          | some m => .ok m rest
          | none =>
            if 1024 * 1024 < (buf ++ data).length then
              .err (.parseError "Message too large") rest
            else readMsgLoop rest (buf ++ data)
      | .errWouldBlock =>
        if buf.isEmpty then readMsgLoop rest buf
        else
          match from_bytes buf with
          | some m => .ok m rest
          | none => readMsgLoop rest buf
      | .errClosed => .err .connectionClosed rest
      | .errOther => .err .ioError rest

/-- One call to `read_message_with_timeout`: the loop started with an empty
local buffer. -/
def readMessage (steps : List RStep) : ReadRes := readMsgLoop steps []

/-! ## Protocol field constants (ASCII byte lists) -/

/-- ASCII bytes of `"op"`. -/
def opKey : List Nat := [111, 112]
/-- ASCII bytes of `"id"`. -/
def idKey : List Nat := [105, 100]
/-- ASCII bytes of `"code"`. -/
def codeKey : List Nat := [99, 111, 100, 101]
/-- ASCII bytes of `"session"`. -/
def sessionKey : List Nat := [115, 101, 115, 115, 105, 111, 110]
/-- ASCII bytes of `"new-session"`. -/
def newSessionKey : List Nat := [110, 101, 119, 45, 115, 101, 115, 115, 105, 111, 110]
/-- ASCII bytes of `"value"`. -/
def valueKey : List Nat := [118, 97, 108, 117, 101]
/-- ASCII bytes of `"out"`. -/
def outKey : List Nat := [111, 117, 116]
/-- ASCII bytes of `"err"`. -/
def errKey : List Nat := [101, 114, 114]
/-- ASCII bytes of `"status"`. -/
def statusKey : List Nat := [115, 116, 97, 116, 117, 115]
/-- ASCII bytes of `"done"`. -/
def doneStr : List Nat := [100, 111, 110, 101]
/-- ASCII bytes of `"error"`. -/
def errorStr : List Nat := [101, 114, 114, 111, 114]
/-- ASCII bytes of `"clone"`. -/
def cloneStr : List Nat := [99, 108, 111, 110, 101]
/-- ASCII bytes of `"eval"`. -/
def evalStr : List Nat := [101, 118, 97, 108]
/-- ASCII bytes of `"close"`. -/
def closeStr : List Nat := [99, 108, 111, 115, 101]

/-- `HashMap::get`: look a key up in a message (association-list lookup). -/
def mget (m : Msg) (k : List Nat) : Option BValue :=
  match m with
  | [] => none
  | (k', v) :: rest => if k' = k then some v else mget rest k

/-! ## Eval aggregation (`eval_with_timeout`, src/main.rs lines 136–230) -/

/-- The aggregate of one eval conversation (`struct EvalResult`), with the
Rust `String` fields as byte lists. -/
structure EvalResultM : Type where
  value : Option (List Nat)
  output : List Nat
  error : List Nat
  has_error : Bool
deriving DecidableEq

/-- `EvalResult::default()`. -/
def evalResultDefault : EvalResultM := ⟨none, [], [], false⟩

/-- The `for status_item in status_list` loop (src/main.rs lines 212–222):
fold over the status items with the mutable pair `(is_done, has_error)`,
starting from `(false, result.has_error)`; byte-string items equal to
`"done"` set the first component, `"error"` the second, everything else
(including non-byte-string items) is ignored. -/
def processStatus (sl : List BValue) (he : Bool) : Bool × Bool :=
  sl.foldl
    (fun p item =>
      match item with
      | .bytes s => if s = doneStr then (true, p.2) else if s = errorStr then (p.1, true) else p
      | _ => p)
    (false, he)

/-- The per-frame merge of `eval_with_timeout` (src/main.rs lines 195–226):
`value` overwrites when present as a byte string, `out`/`err` append, and a
`status` list is folded by `processStatus`.  Returns the updated result and
whether the frame's status contained `"done"`. -/
def mergeFrame (r : EvalResultM) (resp : Msg) : EvalResultM × Bool :=
  let r1 : EvalResultM :=
    match mget resp valueKey with
    | some (.bytes vb) => ⟨some vb, r.output, r.error, r.has_error⟩
    | _ => r
  let r2 : EvalResultM :=
    match mget resp outKey with
    | some (.bytes ob) => ⟨r1.value, r1.output ++ ob, r1.error, r1.has_error⟩
    | _ => r1
  let r3 : EvalResultM :=
    match mget resp errKey with
    | some (.bytes eb) => ⟨r2.value, r2.output, r2.error ++ eb, r2.has_error⟩
    | _ => r2
  match mget resp statusKey with
  | some (.list sl) =>
    (⟨r3.value, r3.output, r3.error, (processStatus sl r3.has_error).2⟩,
      (processStatus sl r3.has_error).1)
  | _ => (r3, false)

/-- The id filter of `eval_with_timeout` (src/main.rs lines 187–193): a
frame is processed unless it carries an `id` field that is a byte string
different from the outstanding request's id (`if let Some(Value::Bytes(..))`
falls through — and thus processes the frame — when `id` is absent or not a
byte string). -/
def frameMatches (evalId : List Nat) (resp : Msg) : Bool :=
  match mget resp idKey with
  | some (.bytes idb) => if idb = evalId then true else false
  | _ => true

/-- Outcome of the aggregation loop on a list of successfully decoded
frames: `done` when a frame carrying `"done"` ended the loop, `pending`
(with the aggregation so far) when the supplied frames ran out first — in
the Rust code the loop would then keep reading until its deadline. -/
inductive EvalLoopRes : Type where
  | done (r : EvalResultM)
  | pending (r : EvalResultM)
deriving DecidableEq

/-- The response loop of `eval_with_timeout` (src/main.rs lines 174–227)
over the successive successfully decoded frames: skip frames rejected by
the id filter, merge the rest, stop at the first merged frame whose status
contained `"done"`. -/
def evalLoop (evalId : List Nat) : List Msg → EvalResultM → EvalLoopRes
  | [], r => .pending r
  | resp :: rest, r =>
    if frameMatches evalId resp then
      match mergeFrame r resp with
      | (r', true) => .done r'
      | (r', false) => evalLoop evalId rest r'
    else evalLoop evalId rest r

/-! ## Session lifecycle (`clone_session`, `eval_with_timeout` entry,
`close`; src/main.rs lines 105–144, 382–404) -/

/-- The session-relevant state of a client (`NreplClient.session`). -/
structure ClientState : Type where
  session : Option (List Nat)
deriving DecidableEq

/-- The request message built by `clone_session` (src/main.rs lines
106–114): `{op: "clone", id}` with a fresh id. -/
def cloneMsg (cloneId : List Nat) : Msg :=
  [(opKey, .bytes cloneStr), (idKey, .bytes cloneId)]

/-- `clone_session` (src/main.rs lines 105–130): send `{op:"clone", id}`,
read one response (outcome supplied as `readRes`), and on a response whose
`new-session` field is a byte string record it as the session and return
it; otherwise fail with `Other`.  Returns the new state, the list of
requests sent on the wire, and the call's result. -/
def cloneSession (st : ClientState) (cloneId : List Nat)
    (readRes : Except NreplError Msg) :
    ClientState × List Msg × Except NreplError (List Nat) :=
  match readRes with
  | .error e => (st, [cloneMsg cloneId], .error e)
  | .ok resp =>
    match mget resp newSessionKey with
    | some (.bytes sb) => (⟨some sb⟩, [cloneMsg cloneId], .ok sb)
    | _ =>
      (st, [cloneMsg cloneId],
        .error (.other "Failed to get session from clone response"))

/-- The eval request message built by `eval_with_timeout` (src/main.rs
lines 146–166): `{op:"eval", id, code}` plus `session` when one is
tracked. -/
def buildEvalMsg (st : ClientState) (code evalId : List Nat) : Msg :=
  [(opKey, .bytes evalStr), (idKey, .bytes evalId), (codeKey, .bytes code)] ++
    (match st.session with
     | some s => [(sessionKey, .bytes s)]
     | none => [])

/-- `eval_with_timeout` (src/main.rs lines 136–230): when no session is
tracked, run `clone_session` first (propagating its failure); then send the
eval request and aggregate response frames with `evalLoop`.  `cloneRead` is
the response read during the clone handshake (used only when one is
performed); `frames` are the successively decoded response frames of the
eval exchange; exhausting them stands for the operation deadline elapsing
(`Timeout`).  Returns the final state, the requests sent on the wire in
order, and the call's result. -/
def evalWithTimeout (st : ClientState) (code evalId cloneId : List Nat)
    (cloneRead : Except NreplError Msg) (frames : List Msg) :
    ClientState × List Msg × Except NreplError EvalResultM :=
  match st.session with
  | none =>
    (match cloneSession st cloneId cloneRead with
     | (st1, wire1, .error e) => (st1, wire1, .error e)
     | (st1, wire1, .ok _) =>
       (st1, wire1 ++ [buildEvalMsg st1 code evalId],
         match evalLoop evalId frames evalResultDefault with
         | .done r => .ok r
         | .pending _ => .error .timeout))
  | some _ =>
    (st, [buildEvalMsg st code evalId],
      match evalLoop evalId frames evalResultDefault with
      | .done r => .ok r
      | .pending _ => .error .timeout)

/-- `close` (src/main.rs lines 382–404): when a session is tracked, build
`{op:"close", id, session}`, attempt the send and the response read with
`let _ = …` (their outcomes, supplied as `sendRes`/`readRes`, are ignored),
clear the session, and return `Ok(())`; with no session, do nothing and
return `Ok(())`.  Returns the new state, the request attempted on the wire
(if any), and the call's result. -/
def closeFn (st : ClientState) (freshId : List Nat)
    (sendRes : Except NreplError Unit) (readRes : Except NreplError Msg) :
    ClientState × Option Msg × Except NreplError Unit :=
  match st.session with
  | some s =>
    (⟨none⟩,
      some [(opKey, .bytes closeStr), (idKey, .bytes freshId), (sessionKey, .bytes s)],
      .ok ())
  | none => (st, none, .ok ())

/-! ## Spec-side aggregation functions (for the refinement statement of the
eval aggregation claim) -/

/-- The `value` field of a frame when present as a byte string. -/
def getValueB (f : Msg) : Option (List Nat) :=
  match mget f valueKey with
  | some (.bytes b) => some b
  | _ => none

/-- The `out` field of a frame when present as a byte string. -/
def getOutB (f : Msg) : Option (List Nat) :=
  match mget f outKey with
  | some (.bytes b) => some b
  | _ => none

/-- The `err` field of a frame when present as a byte string. -/
def getErrB (f : Msg) : Option (List Nat) :=
  match mget f errKey with
  | some (.bytes b) => some b
  | _ => none

/-- Whether a status item is the byte string `s`. -/
def isStatusItem (s : List Nat) : BValue → Bool
  | .bytes b => if b = s then true else false
  | _ => false

/-- The status items of a frame (empty unless `status` is present as a
list). -/
def statusItems (f : Msg) : List BValue :=
  match mget f statusKey with
  | some (.list sl) => sl
  | _ => []

/-- Whether a frame's status list contains `"done"`. -/
def hasDoneB (f : Msg) : Bool := (statusItems f).any (isStatusItem doneStr)

/-- Whether a frame's status list contains `"error"`. -/
def hasErrB (f : Msg) : Bool := (statusItems f).any (isStatusItem errorStr)

/-- Following the spec's words: the value of the last frame that carried
one (`None` if no frame carried one). -/
def specLastValue : List Msg → Option (List Nat)
  | [] => none
  | f :: fs =>
    match specLastValue fs with
    | some v => some v
    | none => getValueB f

/-- Following the spec's words: the concatenation, in frame arrival order,
of the `out` fields. -/
def specOutput : List Msg → List Nat
  | [] => []
  | f :: fs => (getOutB f).getD [] ++ specOutput fs

/-- Following the spec's words: the concatenation, in frame arrival order,
of the `err` fields. -/
def specErrText : List Msg → List Nat
  | [] => []
  | f :: fs => (getErrB f).getD [] ++ specErrText fs

/-- Compositional form of `mergeFrame`'s result component (proved equal to
it in `mergeFrame_eq`). -/
def specMerge (r : EvalResultM) (f : Msg) : EvalResultM :=
  ⟨(match getValueB f with
    | some v => some v
    | none => r.value),
   r.output ++ (getOutB f).getD [],
   r.error ++ (getErrB f).getD [],
   r.has_error || hasErrB f⟩

/-! ## Fuel bookkeeping for the decoder -/

mutual

/-- A fuel amount sufficient for `decodeVal` to decode the encoding of `v`. -/
def costV : BValue → Nat
  | .bytes _ => 1
  | .int _ => 1
  | .list l => 1 + costL l
  | .dict d => 1 + costP d

/-- A fuel amount sufficient for `decodeElemsD` on the encoded elements. -/
def costL : List BValue → Nat
  | [] => 1
  | v :: vs => 1 + max (costV v) (costL vs)

/-- A fuel amount sufficient for `decodePairsD` on the encoded entries. -/
def costP : List (List Nat × BValue) → Nat
  | [] => 1
  | (_, v) :: ps => 1 + max (costV v) (costP ps)

end

/-- One step of decimal accumulation: previous value times ten plus the
value of the ASCII digit `d`. -/
def digitStep (a d : Nat) : Nat := a * 10 + (d - 48)

/-- The input does not start with an ASCII digit (so a maximal digit run
ends exactly before it). -/
def noDigitHead : List Nat → Prop
  | [] => True
  | c :: _ => ¬(48 ≤ c ∧ c ≤ 57)

/-! # Lemmas and theorems -/

/-! ## Decimal digits -/

theorem natDigitsAux_congr :
    ∀ n f1 f2, n < f1 → n < f2 → natDigitsAux f1 n = natDigitsAux f2 n := by
  intro n
  induction n using Nat.strong_induction_on with
  | _ n ih =>
    intro f1 f2 h1 h2
    match f1, h1 with
    | g1+1, _ =>
      match f2, h2 with
      | g2+1, _ =>
        simp only [natDigitsAux]
        by_cases hn : n < 10
        · simp [hn]
        · simp only [if_neg hn]
          have hd : n / 10 < n := Nat.div_lt_self (by omega) (by omega)
          rw [ih (n / 10) hd g1 g2 (by omega) (by omega)]

theorem natDigits_eq (n : Nat) :
    natDigits n = if n < 10 then [48 + n] else natDigits (n / 10) ++ [48 + n % 10] := by
  have h1 : natDigits n = natDigitsAux (n + 1) n := rfl
  rw [h1, natDigitsAux]
  by_cases hn : n < 10
  · simp [hn]
  · have hd : n / 10 < n := Nat.div_lt_self (by omega) (by omega)
    simp only [if_neg hn]
    rw [natDigitsAux_congr (n / 10) n (n / 10 + 1) hd (by omega)]
    rfl

theorem natDigits_ne_nil (n : Nat) : natDigits n ≠ [] := by
  rw [natDigits_eq]
  split <;> simp

theorem natDigits_mem (n : Nat) : ∀ d ∈ natDigits n, 48 ≤ d ∧ d ≤ 57 := by
  induction n using Nat.strong_induction_on with
  | _ n ih =>
    rw [natDigits_eq]
    by_cases hn : n < 10
    · simp only [if_pos hn, List.mem_singleton]
      omega
    · simp only [if_neg hn, List.mem_append, List.mem_singleton]
      intro d hd
      rcases hd with h | h
      · exact ih (n / 10) (Nat.div_lt_self (by omega) (by omega)) d h
      · omega

theorem parseDigitsAux_append :
    ∀ ds rest acc, (∀ d ∈ ds, 48 ≤ d ∧ d ≤ 57) →
      parseDigitsAux (ds ++ rest) acc = parseDigitsAux rest (ds.foldl digitStep acc) := by
  intro ds
  induction ds with
  | nil => intro rest acc _; rfl
  | cons d ds ih =>
    intro rest acc h
    have hd : 48 ≤ d ∧ d ≤ 57 := h d (by simp)
    simp only [List.cons_append, parseDigitsAux, if_pos hd, List.foldl_cons]
    exact ih rest (acc * 10 + (d - 48)) (fun x hx => h x (by simp [hx]))

theorem foldl_digitStep_natDigits (n : Nat) :
    ∀ acc, (natDigits n).foldl digitStep acc = acc * 10 ^ (natDigits n).length + n := by
  induction n using Nat.strong_induction_on with
  | _ n ih =>
    intro acc
    rw [natDigits_eq]
    by_cases hn : n < 10
    · simp only [if_pos hn, List.foldl_cons, List.foldl_nil, List.length_singleton,
        pow_one, digitStep]
      omega
    · simp only [if_neg hn, List.foldl_append, List.foldl_cons, List.foldl_nil,
        List.length_append, List.length_singleton]
      rw [ih (n / 10) (Nat.div_lt_self (by omega) (by omega)) acc]
      simp only [digitStep]
      have h1 : 48 + n % 10 - 48 = n % 10 := by omega
      rw [h1, pow_succ]
      have h2 : n / 10 * 10 + n % 10 = n := by omega
      calc (acc * 10 ^ (natDigits (n / 10)).length + n / 10) * 10 + n % 10
          = acc * (10 ^ (natDigits (n / 10)).length * 10) + (n / 10 * 10 + n % 10) := by
            ring
        _ = acc * (10 ^ (natDigits (n / 10)).length * 10) + n := by rw [h2]

theorem parseDigitsAux_noDigit (n : Nat) :
    ∀ rest, noDigitHead rest → parseDigitsAux rest n = (n, rest) := by
  intro rest h
  cases rest with
  | nil => rfl
  | cons c t => simp only [parseDigitsAux, if_neg h]

theorem parseNatFrom_natDigits (n : Nat) (rest : List Nat) (h : noDigitHead rest) :
    parseNatFrom (natDigits n ++ rest) = some (n, rest) := by
  rcases he : natDigits n with _ | ⟨c, ds⟩
  · exact absurd he (natDigits_ne_nil n)
  · have hc : 48 ≤ c ∧ c ≤ 57 := natDigits_mem n c (by rw [he]; simp)
    have hds : ∀ d ∈ ds, 48 ≤ d ∧ d ≤ 57 := fun d hd => natDigits_mem n d (by rw [he]; simp [hd])
    simp only [List.cons_append, parseNatFrom, if_pos hc]
    rw [parseDigitsAux_append ds rest (c - 48) hds]
    have hfold : ds.foldl digitStep (c - 48) = n := by
      have h0 : (natDigits n).foldl digitStep 0 = n := by
        rw [foldl_digitStep_natDigits n 0]; omega
      rw [he, List.foldl_cons] at h0
      simpa [digitStep] using h0
    rw [hfold, parseDigitsAux_noDigit n rest h]

/-! ## Byte-string codec roundtrip -/

theorem parseBytes_encBytes (b rest : List Nat) :
    parseBytes (encBytes b ++ rest) = some (b, rest) := by
  have hassoc : encBytes b ++ rest = natDigits b.length ++ (58 :: (b ++ rest)) := by
    simp [encBytes]
  have hnd : noDigitHead (58 :: (b ++ rest)) := by
    simp only [noDigitHead]
    omega
  rw [hassoc]
  simp only [parseBytes, parseNatFrom_natDigits b.length (58 :: (b ++ rest)) hnd]
  have hle : b.length ≤ (b ++ rest).length := by simp
  simp only [if_pos hle, List.take_left, List.drop_left]

theorem encodeVal_head (v : BValue) :
    ∃ c t, encodeVal v = c :: t ∧ (c = 105 ∨ c = 108 ∨ c = 100 ∨ (48 ≤ c ∧ c ≤ 57)) := by
  cases v with
  | bytes b =>
    rcases he : natDigits b.length with _ | ⟨c, ds⟩
    · exact absurd he (natDigits_ne_nil _)
    · have hc : 48 ≤ c ∧ c ≤ 57 := natDigits_mem _ c (by rw [he]; simp)
      exact ⟨c, ds ++ 58 :: b, by simp [encodeVal, encBytes, he], Or.inr (Or.inr (Or.inr hc))⟩
  | int i =>
    refine ⟨105, (if i < 0 then 45 :: natDigits i.natAbs else natDigits i.toNat) ++ [101],
      ?_, Or.inl rfl⟩
    rw [encodeVal, encInt]
    simp
  | list l =>
    refine ⟨108, encodeElemsE l ++ [101], ?_, Or.inr (Or.inl rfl)⟩
    rw [encodeVal]
    simp
  | dict d =>
    refine ⟨100, encodePairsE d ++ [101], ?_, Or.inr (Or.inr (Or.inl rfl))⟩
    rw [encodeVal]
    simp

theorem decodeVal_digitHead (g c : Nat) (t : List Nat) (h48 : 48 ≤ c) (h57 : c ≤ 57) :
    decodeVal (g+1) (c :: t) =
      match parseBytes (c :: t) with
      | some (b, r) => some (BValue.bytes b, r)
      | none => none := by
  have h105 : ¬(c = 105) := by omega
  have h108 : ¬(c = 108) := by omega
  have h100 : ¬(c = 100) := by omega
  rw [decodeVal.eq_def]
  simp only []
  rw [if_neg h105, if_neg h108, if_neg h100, if_pos ⟨h48, h57⟩]

theorem decodeElemsD_notE (g c : Nat) (t : List Nat) (hc : ¬(c = 101)) :
    decodeElemsD (g+1) (c :: t) =
      match decodeVal g (c :: t) with
      | some (v, r1) =>
        (match decodeElemsD g r1 with
         | some (vs, r2) => some (v :: vs, r2)
         | none => none)
      | none => none := by
  rw [decodeElemsD.eq_def]
  simp only []
  rw [if_neg hc]

theorem decodePairsD_notE (g c : Nat) (t : List Nat) (hc : ¬(c = 101)) :
    decodePairsD (g+1) (c :: t) =
      match parseBytes (c :: t) with
      | some (k, r1) =>
        (match decodeVal g r1 with
         | some (v, r2) =>
           (match decodePairsD g r2 with
            | some (ps, r3) => some ((k, v) :: ps, r3)
            | none => none)
         | none => none)
      | none => none := by
  rw [decodePairsD.eq_def]
  simp only []
  rw [if_neg hc]

theorem costV_pos (v : BValue) : 1 ≤ costV v := by
  cases v <;> simp [costV]

theorem costL_pos (l : List BValue) : 1 ≤ costL l := by
  cases l with
  | nil => simp [costL]
  | cons v vs => simp [costL]

theorem costP_pos (d : List (List Nat × BValue)) : 1 ≤ costP d := by
  cases d with
  | nil => simp [costP]
  | cons p ps => cases p; simp [costP]

theorem encodeVal_length_pos (v : BValue) : 1 ≤ (encodeVal v).length := by
  obtain ⟨c, t, hct, _⟩ := encodeVal_head v
  rw [hct]
  simp

/-! ## Decoder roundtrip (mutual structural induction on `BValue`) -/

mutual

/-- Decoding the encoding of any value, with sufficient fuel, returns the
value and leaves trailing bytes untouched. -/
def roundV : (v : BValue) → ∀ f rest, costV v ≤ f →
    decodeVal f (encodeVal v ++ rest) = some (v, rest)
  | .bytes b => by
    intro f rest hf
    have h1 : costV (.bytes b) = 1 := by simp [costV]
    obtain ⟨g, rfl⟩ : ∃ g, f = g + 1 := ⟨f - 1, by omega⟩
    rcases he : natDigits b.length with _ | ⟨c, ds⟩
    · exact absurd he (natDigits_ne_nil _)
    have hc : 48 ≤ c ∧ c ≤ 57 := natDigits_mem _ c (by rw [he]; simp)
    have heb : encodeVal (.bytes b) = encBytes b := by rw [encodeVal]
    have hshape : encodeVal (.bytes b) ++ rest = c :: (ds ++ 58 :: (b ++ rest)) := by
      rw [heb]
      simp [encBytes, he]
    rw [hshape, decodeVal_digitHead g c _ hc.1 hc.2, ← hshape, heb, parseBytes_encBytes]
  | .int i => by
    intro f rest hf
    have h1 : costV (.int i) = 1 := by simp [costV]
    obtain ⟨g, rfl⟩ : ∃ g, f = g + 1 := ⟨f - 1, by omega⟩
    have hshape : encodeVal (.int i) ++ rest =
        105 :: ((if i < 0 then 45 :: natDigits i.natAbs else natDigits i.toNat) ++
          (101 :: rest)) := by
      rw [encodeVal, encInt]
      simp
    rw [hshape, decodeVal.eq_def]
    norm_num
    by_cases hi : i < 0
    · rw [if_pos hi]
      simp only [List.cons_append]
      norm_num
      rw [parseNatFrom_natDigits i.natAbs (101 :: rest) (by simp only [noDigitHead]; omega)]
      simp only []
      have : -(i.natAbs : Int) = i := by omega
      rw [this]
    · rw [if_neg hi]
      rcases he : natDigits i.toNat with _ | ⟨c, ds⟩
      · exact absurd he (natDigits_ne_nil _)
      have hc : 48 ≤ c ∧ c ≤ 57 := natDigits_mem _ c (by rw [he]; simp)
      simp only [List.cons_append]
      rw [if_neg (by omega : ¬(c = 45))]
      rw [show c :: (ds ++ 101 :: rest) = natDigits i.toNat ++ (101 :: rest) by
        rw [he]; simp]
      rw [parseNatFrom_natDigits i.toNat (101 :: rest) (by simp only [noDigitHead]; omega)]
      simp only []
      have : (i.toNat : Int) = i := by omega
      rw [this]
  | .list l => by
    intro f rest hf
    have h1 : costV (.list l) = 1 + costL l := by simp [costV]
    obtain ⟨g, rfl⟩ : ∃ g, f = g + 1 := ⟨f - 1, by omega⟩
    have hg : costL l ≤ g := by omega
    have hshape : encodeVal (.list l) ++ rest = 108 :: (encodeElemsE l ++ (101 :: rest)) := by
      rw [encodeVal]
      simp
    rw [hshape, decodeVal.eq_def]
    norm_num
    rw [roundL l g rest hg]
  | .dict d => by
    intro f rest hf
    have h1 : costV (.dict d) = 1 + costP d := by simp [costV]
    obtain ⟨g, rfl⟩ : ∃ g, f = g + 1 := ⟨f - 1, by omega⟩
    have hg : costP d ≤ g := by omega
    have hshape : encodeVal (.dict d) ++ rest = 100 :: (encodePairsE d ++ (101 :: rest)) := by
      rw [encodeVal]
      simp
    rw [hshape, decodeVal.eq_def]
    norm_num
    rw [roundP d g rest hg]

/-- Decoding the encoded elements of a list, with sufficient fuel, returns
the elements and the input past the closing `'e'`. -/
def roundL : (l : List BValue) → ∀ f rest, costL l ≤ f →
    decodeElemsD f (encodeElemsE l ++ 101 :: rest) = some (l, rest)
  | [] => by
    intro f rest hf
    have h1 : costL ([] : List BValue) = 1 := by simp [costL]
    obtain ⟨g, rfl⟩ : ∃ g, f = g + 1 := ⟨f - 1, by omega⟩
    rw [show encodeElemsE [] ++ 101 :: rest = 101 :: rest by rw [encodeElemsE]; simp]
    rw [decodeElemsD.eq_def]
    norm_num
  | v :: vs => by
    intro f rest hf
    have h1 : costL (v :: vs) = 1 + max (costV v) (costL vs) := by simp [costL]
    obtain ⟨g, rfl⟩ : ∃ g, f = g + 1 := ⟨f - 1, by omega⟩
    have hv : costV v ≤ g := by omega
    have hvs : costL vs ≤ g := by omega
    obtain ⟨c, t, hct, hcr⟩ := encodeVal_head v
    have hc101 : ¬(c = 101) := by rcases hcr with h | h | h | h <;> omega
    have hshape : encodeElemsE (v :: vs) ++ 101 :: rest =
        c :: (t ++ (encodeElemsE vs ++ 101 :: rest)) := by
      rw [encodeElemsE, hct]
      simp
    rw [hshape, decodeElemsD_notE g c _ hc101]
    rw [show c :: (t ++ (encodeElemsE vs ++ 101 :: rest)) =
        encodeVal v ++ (encodeElemsE vs ++ 101 :: rest) by rw [hct]; simp]
    rw [roundV v g _ hv]
    simp only []
    rw [roundL vs g rest hvs]

/-- Decoding the encoded entries of a dictionary, with sufficient fuel,
returns the entries and the input past the closing `'e'`. -/
def roundP : (d : List (List Nat × BValue)) → ∀ f rest, costP d ≤ f →
    decodePairsD f (encodePairsE d ++ 101 :: rest) = some (d, rest)
  | [] => by
    intro f rest hf
    have h1 : costP ([] : List (List Nat × BValue)) = 1 := by simp [costP]
    obtain ⟨g, rfl⟩ : ∃ g, f = g + 1 := ⟨f - 1, by omega⟩
    rw [show encodePairsE [] ++ 101 :: rest = 101 :: rest by rw [encodePairsE]; simp]
    rw [decodePairsD.eq_def]
    norm_num
  | (k, v) :: ps => by
    intro f rest hf
    have h1 : costP ((k, v) :: ps) = 1 + max (costV v) (costP ps) := by simp [costP]
    obtain ⟨g, rfl⟩ : ∃ g, f = g + 1 := ⟨f - 1, by omega⟩
    have hv : costV v ≤ g := by omega
    have hps : costP ps ≤ g := by omega
    rcases he : natDigits k.length with _ | ⟨c, ds⟩
    · exact absurd he (natDigits_ne_nil _)
    have hc : 48 ≤ c ∧ c ≤ 57 := natDigits_mem _ c (by rw [he]; simp)
    have hc101 : ¬(c = 101) := by omega
    have hshape : encodePairsE ((k, v) :: ps) ++ 101 :: rest =
        c :: (ds ++ 58 :: (k ++ (encodeVal v ++ (encodePairsE ps ++ 101 :: rest)))) := by
      rw [encodePairsE]
      simp [encBytes, he]
    rw [hshape, decodePairsD_notE g c _ hc101]
    rw [show c :: (ds ++ 58 :: (k ++ (encodeVal v ++ (encodePairsE ps ++ 101 :: rest)))) =
        encBytes k ++ (encodeVal v ++ (encodePairsE ps ++ 101 :: rest)) by
      simp [encBytes, he]]
    rw [parseBytes_encBytes]
    simp only []
    rw [roundV v g _ hv]
    simp only []
    rw [roundP ps g rest hps]

end

mutual

/-- The fuel needed to decode a value is at most the length of its
encoding. -/
def boundV : (v : BValue) → costV v ≤ (encodeVal v).length
  | .bytes b => by
    have := encodeVal_length_pos (.bytes b)
    simp only [costV]
    omega
  | .int i => by
    have := encodeVal_length_pos (.int i)
    simp only [costV]
    omega
  | .list l => by
    have h := boundL l
    rw [show encodeVal (.list l) = 108 :: encodeElemsE l ++ [101] from by rw [encodeVal]]
    simp only [costV, List.length_append, List.length_cons, List.length_singleton]
    omega
  | .dict d => by
    have h := boundP d
    rw [show encodeVal (.dict d) = 100 :: encodePairsE d ++ [101] from by rw [encodeVal]]
    simp only [costV, List.length_append, List.length_cons, List.length_singleton]
    omega

/-- The fuel needed to decode encoded list elements is at most the length of
their encoding plus one. -/
def boundL : (l : List BValue) → costL l ≤ (encodeElemsE l).length + 1
  | [] => by
    rw [show encodeElemsE [] = [] from by rw [encodeElemsE]]
    simp [costL]
  | v :: vs => by
    have hv := boundV v
    have hvs := boundL vs
    have hp := encodeVal_length_pos v
    rw [show encodeElemsE (v :: vs) = encodeVal v ++ encodeElemsE vs from by rw [encodeElemsE]]
    simp only [costL, List.length_append]
    omega

/-- The fuel needed to decode encoded dictionary entries is at most the
length of their encoding plus one. -/
def boundP : (d : List (List Nat × BValue)) → costP d ≤ (encodePairsE d).length + 1
  | [] => by
    rw [show encodePairsE [] = [] from by rw [encodePairsE]]
    simp [costP]
  | (k, v) :: ps => by
    have hv := boundV v
    have hps := boundP ps
    have hp := encodeVal_length_pos v
    rw [show encodePairsE ((k, v) :: ps) = encBytes k ++ encodeVal v ++ encodePairsE ps from by
      rw [encodePairsE]]
    simp only [costP, List.length_append]
    omega

end

/-- Decoding a buffer that starts with the encoding of message `m` succeeds
and returns `m`, ignoring whatever trailing bytes follow. -/
theorem from_bytes_encodeMsg_append (m : Msg) (extra : List Nat) :
    from_bytes (encodeMsg m ++ extra) = some m := by
  have hshape : encodeMsg m ++ extra = 100 :: (encodePairsE m ++ (101 :: extra)) := by
    rw [encodeMsg, encodeVal]
    simp
  rw [hshape]
  simp only [from_bytes]
  have hfuel : costP m ≤ (100 :: (encodePairsE m ++ (101 :: extra))).length := by
    have := boundP m
    simp only [List.length_cons, List.length_append]
    omega
  rw [roundP m _ extra hfuel]

/-! ## Reader loop lemmas -/

/-- Running the reader loop over a concatenated trace: if the first part
leaves the loop still reading, it continues into the second part with the
accumulated buffer; otherwise the outcome stands and the second part is
left unconsumed. -/
theorem readMsgLoop_append (a b : List RStep) (buf : List Nat) :
    readMsgLoop (a ++ b) buf =
      match readMsgLoop a buf with
      | .pending buf' => readMsgLoop b buf'
      | .ok m rest => .ok m (rest ++ b)
      | .err e rest => .err e (rest ++ b) := by
  induction a generalizing buf with
  | nil => simp [readMsgLoop]
  | cons s rest ih =>
    simp only [List.cons_append, readMsgLoop]
    by_cases ht : s.tfired
    · simp [ht]
    · simp only [if_neg ht]
      cases hev : s.ev with
      | okRead data =>
        by_cases hd : data.isEmpty
        · simp [hd]
        · simp only [hd, Bool.false_eq_true, if_false, if_neg]
          cases hfb : from_bytes (buf ++ data) with
          | some m => simp
          | none =>
            by_cases hl : 1024 * 1024 < (buf ++ data).length
            · have hl' : 1048576 < buf.length + data.length := by
                simpa [List.length_append] using hl
              simp [hl']
            · simp only [if_neg hl]
              exact ih (buf ++ data)
      | errWouldBlock =>
        by_cases hb : buf.isEmpty
        · simp only [hb, if_true]
          exact ih buf
        · simp only [hb, Bool.false_eq_true, if_false, if_neg]
          cases hfb : from_bytes buf with
          | some m => simp
          | none => exact ih buf
      | errClosed => simp
      | errOther => simp

/-! ## Claim C4: encode/decode roundtrip -/

/-- C4: for every constructible message `m` (a mapping from string keys to
byte-string/integer/list/mapping values), decoding the bytes produced by
encoding `m` yields a value equal to `m`.  (`m` ranges over association
lists, covering every enumeration of every constructible `HashMap`
message.) -/
theorem c4_decode_encode_roundtrip (m : Msg) : from_bytes (encodeMsg m) = some m := by
  have h := from_bytes_encodeMsg_append m []
  simpa using h

/-! ## Claim C7: a 0-byte read always fails with `ConnectionClosed` -/

/-- C7: whenever a read from the transport returns 0 bytes while a message
read is in progress (the loop over `pre` is still reading), that call fails
with `ConnectionClosed` — not with `IoError` or any other variant. -/
theorem c7_zero_read_connection_closed (pre post : List RStep) (buf buf' : List Nat)
    (h : readMsgLoop pre buf = .pending buf') :
    readMsgLoop (pre ++ ⟨false, .okRead []⟩ :: post) buf = .err .connectionClosed post := by
  rw [readMsgLoop_append, h]
  simp [readMsgLoop]

/-- Witness for C7: after one `WouldBlock` iteration the read of `Ok(0)`
fails the call with `ConnectionClosed`. -/
theorem c7_zero_read_connection_closed_witness :
    readMsgLoop ([⟨false, .errWouldBlock⟩] ++ ⟨false, .okRead []⟩ :: []) [] =
      .err .connectionClosed [] :=
  c7_zero_read_connection_closed [⟨false, .errWouldBlock⟩] [] [] [] rfl

/-! ## Claim C8: the 1 MiB size cap -/

/-- C8 (amended): if the accumulated buffer exceeds 1 MiB (1024·1024 bytes)
without containing a complete decodable message, the read call fails with
`ParseError("Message too large")` (the code's message is capitalized, not
the claim's `"message too large"`). -/
theorem c8_size_cap_parse_error (pre post : List RStep) (buf buf' data : List Nat)
    (h : readMsgLoop pre buf = .pending buf')
    (hdata : data.isEmpty = false)
    (hfb : from_bytes (buf' ++ data) = none)
    (hlen : 1024 * 1024 < (buf' ++ data).length) :
    readMsgLoop (pre ++ ⟨false, .okRead data⟩ :: post) buf =
      .err (.parseError "Message too large") post := by
  rw [readMsgLoop_append, h]
  simp only [readMsgLoop, Bool.false_eq_true, if_false, hdata, hfb, if_neg, hlen, if_pos]

/-- Witness for C8 (amended): a single over-cap unparsable read fails with
`ParseError("Message too large")`. -/
theorem c8_size_cap_parse_error_witness :
    readMsgLoop ([] ++ ⟨false, .okRead (List.replicate 1048577 120)⟩ :: []) [] =
      .err (.parseError "Message too large") [] := by
  have h120 : List.replicate 1048577 120 = 120 :: List.replicate 1048576 120 := by
    rw [show (1048577 : Nat) = 1048576 + 1 from rfl, List.replicate_succ]
  refine c8_size_cap_parse_error [] [] [] [] (List.replicate 1048577 120) rfl ?_ ?_ ?_
  · rw [h120]
    rfl
  · rw [List.nil_append, h120]
    rfl
  · rw [List.nil_append, List.length_replicate]
    omega

/-- C8 counterexample: at the same over-cap input the call's error payload
is `"Message too large"`, which differs from the claimed
`"message too large"`; the claim as stated (with the lowercase message)
does not hold. -/
theorem c8_message_case_counterexample :
    readMessage [⟨false, .okRead (List.replicate 1048577 120)⟩] =
      .err (.parseError "Message too large") [] ∧
    NreplError.parseError "Message too large" ≠
      NreplError.parseError "message too large" := by
  constructor
  · have h120 : List.replicate 1048577 120 = 120 :: List.replicate 1048576 120 := by
      rw [show (1048577 : Nat) = 1048576 + 1 from rfl, List.replicate_succ]
    have hfb : from_bytes ([] ++ List.replicate 1048577 120) = none := by
      rw [List.nil_append, h120]
      rfl
    have hne : (List.replicate 1048577 (120 : Nat)).isEmpty = false := by
      rw [h120]
      rfl
    have hlen : 1024 * 1024 < ([] ++ List.replicate 1048577 (120 : Nat)).length := by
      rw [List.nil_append, List.length_replicate]
      omega
    show readMsgLoop _ [] = _
    simp only [readMsgLoop, Bool.false_eq_true, if_false, hne, hfb, hlen, if_pos]
  · intro h
    have := NreplError.parseError.inj h
    simp at this

/-! ## Claim C1: pipelined frames (two frames in one read) -/

/-- C1 (investigated): one read returns the concatenation of two complete
frames `{"id":"1"}` and `{"id":"2"}`, then the peer closes.  The first
`read_message_with_timeout` call returns the first frame and drops the
trailing bytes of the second (its buffer is call-local and
`from_bytes` ignores the remainder); the second call finds the connection
closed instead of returning the second, distinct frame. -/
theorem c1_second_frame_lost :
    readMessage [⟨false, .okRead (encodeMsg [(idKey, .bytes [49])] ++
        encodeMsg [(idKey, .bytes [50])])⟩, ⟨false, .errClosed⟩] =
      .ok [(idKey, .bytes [49])] [⟨false, .errClosed⟩] ∧
    readMsgLoop [⟨false, .errClosed⟩] [] = .err .connectionClosed [] ∧
    ([(idKey, BValue.bytes [50])] : Msg) ≠ [(idKey, BValue.bytes [49])] := by
  refine ⟨?_, rfl, by simp⟩
  show readMsgLoop _ [] = _
  have hfb : from_bytes ([] ++ (encodeMsg [(idKey, .bytes [49])] ++
      encodeMsg [(idKey, .bytes [50])])) = some [(idKey, .bytes [49])] := by
    rw [List.nil_append]
    exact from_bytes_encodeMsg_append [(idKey, .bytes [49])] (encodeMsg [(idKey, .bytes [50])])
  have hne : (encodeMsg [(idKey, BValue.bytes [49])] ++
      encodeMsg [(idKey, BValue.bytes [50])]).isEmpty = false := by rfl
  simp only [readMsgLoop, Bool.false_eq_true, if_false, hne, hfb]

/-! ## Claim C2: malformed input is not distinguished from incomplete -/

/-- C2 (investigated): the byte `0x78` (`'x'`) can never be extended to a
valid message, yet the read path treats the decode failure as
"need more data": it keeps waiting (`pending`) rather than failing with
`ParseError`, and when the peer then closes it fails with
`ConnectionClosed`. -/
theorem c2_malformed_not_detected :
    (∀ ext, from_bytes (120 :: ext) = none) ∧
    readMessage [⟨false, .okRead [120]⟩] = .pending [120] ∧
    readMessage [⟨false, .okRead [120]⟩, ⟨false, .errClosed⟩] =
      .err .connectionClosed [] :=
  ⟨fun _ => rfl, rfl, rfl⟩

/-! ## Eval aggregation lemmas -/

theorem statusFold_eq (sl : List BValue) :
    ∀ d e : Bool,
      sl.foldl
        (fun p item =>
          match item with
          | BValue.bytes s =>
            if s = doneStr then (true, p.2) else if s = errorStr then (p.1, true) else p
          | _ => p)
        (d, e) = (d || sl.any (isStatusItem doneStr), e || sl.any (isStatusItem errorStr)) := by
  induction sl with
  | nil => intro d e; simp
  | cons item rest ih =>
    intro d e
    rw [List.foldl_cons]
    cases item with
    | bytes s =>
      by_cases hd : s = doneStr
      · subst hd
        simp only [if_pos rfl]
        rw [ih]
        simp [isStatusItem, doneStr, errorStr]
      · by_cases he : s = errorStr
        · subst he
          simp only [if_neg hd, if_pos rfl]
          rw [ih]
          simp [isStatusItem, doneStr, errorStr, hd]
        · simp only [if_neg hd, if_neg he]
          rw [ih]
          simp [isStatusItem, hd, he]
    | int i =>
      rw [ih]
      simp [isStatusItem]
    | list l =>
      rw [ih]
      simp [isStatusItem]
    | dict d2 =>
      rw [ih]
      simp [isStatusItem]

theorem processStatus_eq (sl : List BValue) (he : Bool) :
    processStatus sl he =
      (sl.any (isStatusItem doneStr), he || sl.any (isStatusItem errorStr)) := by
  rw [processStatus, statusFold_eq]
  simp

/-- The per-frame merge of the code equals the compositional spec-side merge,
and the loop-exit flag is exactly "the status list contained `done`". -/
theorem mergeFrame_eq (r : EvalResultM) (resp : Msg) :
    mergeFrame r resp = (specMerge r resp, hasDoneB resp) := by
  rw [mergeFrame, specMerge, hasDoneB, statusItems, getValueB, getOutB, getErrB]
  rcases hv : mget resp valueKey with _ | v
  case' some => cases v
  all_goals (
    rcases ho : mget resp outKey with _ | o
    case' some => cases o
    all_goals (
      rcases he : mget resp errKey with _ | e
      case' some => cases e
      all_goals (
        rcases hs : mget resp statusKey with _ | s
        case' some => cases s
        all_goals simp_all [processStatus_eq, hasErrB, statusItems])))

theorem foldl_specMerge_value (fs : List Msg) :
    ∀ r : EvalResultM, (fs.foldl specMerge r).value =
      match specLastValue fs with
      | some v => some v
      | none => r.value := by
  induction fs with
  | nil => intro r; simp [specLastValue]
  | cons f fs ih =>
    intro r
    rw [List.foldl_cons, ih, specLastValue]
    rcases specLastValue fs with _ | v
    · rcases hw : getValueB f with _ | w <;> simp [specMerge, hw]
    · simp

theorem foldl_specMerge_output (fs : List Msg) :
    ∀ r : EvalResultM, (fs.foldl specMerge r).output = r.output ++ specOutput fs := by
  induction fs with
  | nil => intro r; simp [specOutput]
  | cons f fs ih =>
    intro r
    rw [List.foldl_cons, ih, specOutput]
    simp [specMerge]

theorem foldl_specMerge_error (fs : List Msg) :
    ∀ r : EvalResultM, (fs.foldl specMerge r).error = r.error ++ specErrText fs := by
  induction fs with
  | nil => intro r; simp [specErrText]
  | cons f fs ih =>
    intro r
    rw [List.foldl_cons, ih, specErrText]
    simp [specMerge]

theorem foldl_specMerge_hasError (fs : List Msg) :
    ∀ r : EvalResultM, (fs.foldl specMerge r).has_error = (r.has_error || fs.any hasErrB) := by
  induction fs with
  | nil => intro r; simp
  | cons f fs ih =>
    intro r
    rw [List.foldl_cons, ih]
    simp [specMerge, Bool.or_assoc]

/-- Folding the spec-side merge from the default result computes exactly the
spec-side aggregation of the frames. -/
theorem foldl_specMerge_default (fs : List Msg) :
    fs.foldl specMerge evalResultDefault =
      ⟨specLastValue fs, specOutput fs, specErrText fs, fs.any hasErrB⟩ := by
  have hv := foldl_specMerge_value fs evalResultDefault
  have ho := foldl_specMerge_output fs evalResultDefault
  have he := foldl_specMerge_error fs evalResultDefault
  have hh := foldl_specMerge_hasError fs evalResultDefault
  cases hx : fs.foldl specMerge evalResultDefault with
  | mk a b c d =>
    rw [hx] at hv ho he hh
    simp only [evalResultDefault] at hv ho he hh
    simp only [List.nil_append] at ho he
    subst ho he hh
    simp only [EvalResultM.mk.injEq, Bool.false_or, and_true, true_and]
    rw [hv]
    rcases specLastValue fs with _ | v <;> rfl

/-- The aggregation loop, run over matching frames none of which carries
`done` followed by a matching `done` frame, terminates there and returns
the fold of the merges over the processed frames. -/
theorem evalLoop_done (evalId : List Nat) (d : Msg) (post : List Msg)
    (hd : hasDoneB d = true) (hmd : frameMatches evalId d = true) :
    ∀ (pre : List Msg) (r : EvalResultM),
      (∀ f ∈ pre, frameMatches evalId f = true) →
      (∀ f ∈ pre, hasDoneB f = false) →
      evalLoop evalId (pre ++ d :: post) r = .done ((pre ++ [d]).foldl specMerge r) := by
  intro pre
  induction pre with
  | nil =>
    intro r _ _
    simp only [List.nil_append, evalLoop, if_pos hmd, mergeFrame_eq, hd, List.foldl_cons,
      List.foldl_nil]
  | cons f pre ih =>
    intro r hm hnd
    have hmf : frameMatches evalId f = true := hm f (by simp)
    have hdf : hasDoneB f = false := hnd f (by simp)
    simp only [List.cons_append, evalLoop, if_pos hmf, mergeFrame_eq, hdf, List.append_eq]
    rw [ih (specMerge r f) (fun g hg => hm g (by simp [hg])) (fun g hg => hnd g (by simp [hg]))]
    simp

/-! ## Claim C3: eval aggregation semantics -/

/-- C3: over any sequence of matching response frames — none carrying
`"done"` before a final `done` frame, arbitrary frames after — the loop
terminates at the `done` frame and the aggregate satisfies: `value` is the
value of the last frame that carried one (`none` if none did), `output` and
`error` are the in-order concatenations of the `out` and `err` fields, and
`has_error` holds iff some processed frame's status list contained
`"error"` (sticky). -/
theorem c3_eval_aggregation (evalId : List Nat) (pre post : List Msg) (d : Msg)
    (hm : ∀ f ∈ pre, frameMatches evalId f = true)
    (hmd : frameMatches evalId d = true)
    (hnd : ∀ f ∈ pre, hasDoneB f = false)
    (hd : hasDoneB d = true) :
    evalLoop evalId (pre ++ d :: post) evalResultDefault =
      .done ⟨specLastValue (pre ++ [d]), specOutput (pre ++ [d]), specErrText (pre ++ [d]),
        (pre ++ [d]).any hasErrB⟩ ∧
    ((pre ++ [d]).any hasErrB = true ↔ ∃ f ∈ pre ++ [d], hasErrB f = true) := by
  constructor
  · rw [evalLoop_done evalId d post hd hmd pre evalResultDefault hm hnd,
      foldl_specMerge_default]
  · simp only [List.any_eq_true]

/-- Witness for C3: frames `[{id, value:"6"}, {id, status:["done"]}]`
aggregate to value `"6"`, empty output and error, no error flag, stopping
at the `done` frame. -/
theorem c3_eval_aggregation_witness :
    evalLoop [49] ([[(idKey, BValue.bytes [49]), (valueKey, BValue.bytes [54])]] ++
        [(idKey, BValue.bytes [49]), (statusKey, BValue.list [BValue.bytes doneStr])] :: []) evalResultDefault =
      .done ⟨specLastValue ([[(idKey, BValue.bytes [49]), (valueKey, BValue.bytes [54])]] ++
          [[(idKey, BValue.bytes [49]), (statusKey, BValue.list [BValue.bytes doneStr])]]),
        specOutput ([[(idKey, BValue.bytes [49]), (valueKey, BValue.bytes [54])]] ++
          [[(idKey, BValue.bytes [49]), (statusKey, BValue.list [BValue.bytes doneStr])]]),
        specErrText ([[(idKey, BValue.bytes [49]), (valueKey, BValue.bytes [54])]] ++
          [[(idKey, BValue.bytes [49]), (statusKey, BValue.list [BValue.bytes doneStr])]]),
        ([[(idKey, BValue.bytes [49]), (valueKey, BValue.bytes [54])]] ++
          [[(idKey, BValue.bytes [49]), (statusKey, BValue.list [BValue.bytes doneStr])]]).any hasErrB⟩ ∧
    (([[(idKey, BValue.bytes [49]), (valueKey, BValue.bytes [54])]] ++
        [[(idKey, BValue.bytes [49]), (statusKey, BValue.list [BValue.bytes doneStr])]]).any hasErrB = true ↔
      ∃ f ∈ [[(idKey, BValue.bytes [49]), (valueKey, BValue.bytes [54])]] ++
        [[(idKey, BValue.bytes [49]), (statusKey, BValue.list [BValue.bytes doneStr])]], hasErrB f = true) :=
  c3_eval_aggregation [49] [[(idKey, BValue.bytes [49]), (valueKey, BValue.bytes [54])]] []
    [(idKey, BValue.bytes [49]), (statusKey, BValue.list [BValue.bytes doneStr])]
    (by decide) (by decide) (by decide) (by decide)

/-! ## Claim C5: frames with a non-matching id are discarded -/

/-- C5: inserting a frame whose id does not match anywhere into the frame
sequence leaves the aggregation loop's result unchanged — none of its
fields alter the final result, and the loop continues reading. -/
theorem c5_mismatched_id_discarded (evalId : List Nat) (pre post : List Msg) (g : Msg)
    (r : EvalResultM) (hg : frameMatches evalId g = false) :
    evalLoop evalId (pre ++ g :: post) r = evalLoop evalId (pre ++ post) r := by
  induction pre generalizing r with
  | nil =>
    simp only [List.nil_append, evalLoop, hg, Bool.false_eq_true, if_false]
  | cons f pre ih =>
    simp only [List.cons_append, evalLoop]
    by_cases hf : frameMatches evalId f
    · simp only [if_pos hf]
      rcases hmf : mergeFrame r f with ⟨r', done⟩
      cases done
      · exact ih r'
      · rfl
    · simp only [if_neg hf]
      exact ih r

/-- Witness for C5: a frame with id `"2"` interleaved before the frames of
request id `"1"` does not change the loop's behaviour. -/
theorem c5_mismatched_id_discarded_witness :
    evalLoop [49] ([] ++ [(idKey, BValue.bytes [50])] :: []) evalResultDefault =
      evalLoop [49] ([] ++ []) evalResultDefault :=
  c5_mismatched_id_discarded [49] [] [] [(idKey, .bytes [50])] evalResultDefault (by decide)

/-! ## Claim C10: frames with no id at all are processed -/

/-- C10: a response frame carrying no `id` field is treated as belonging to
the outstanding request: the id filter accepts it, its fields are merged
into the running result, and a `done` status in it terminates the loop —
it is not discarded. -/
theorem c10_missing_id_processed (evalId : List Nat) (g : Msg) (post : List Msg)
    (r : EvalResultM) (h : mget g idKey = none) :
    frameMatches evalId g = true ∧
    (hasDoneB g = true → evalLoop evalId (g :: post) r = .done (mergeFrame r g).1) ∧
    (hasDoneB g = false →
      evalLoop evalId (g :: post) r = evalLoop evalId post (mergeFrame r g).1) := by
  have hfm : frameMatches evalId g = true := by rw [frameMatches, h]
  refine ⟨hfm, ?_, ?_⟩
  · intro hdg
    simp only [evalLoop, if_pos hfm, mergeFrame_eq, hdg]
  · intro hdg
    simp only [evalLoop, if_pos hfm, mergeFrame_eq, hdg]

/-- Witness for C10: a frame `{status:["done"], value:"6"}` with no id ends
the loop with its fields merged. -/
theorem c10_missing_id_processed_witness :
    frameMatches [49] [(statusKey, BValue.list [BValue.bytes doneStr]), (valueKey, BValue.bytes [54])] =
      true ∧
    (hasDoneB [(statusKey, BValue.list [BValue.bytes doneStr]), (valueKey, BValue.bytes [54])] = true →
      evalLoop [49] ([(statusKey, BValue.list [BValue.bytes doneStr]), (valueKey, BValue.bytes [54])] :: [])
          evalResultDefault =
        .done (mergeFrame evalResultDefault
          [(statusKey, BValue.list [BValue.bytes doneStr]), (valueKey, BValue.bytes [54])]).1) ∧
    (hasDoneB [(statusKey, BValue.list [BValue.bytes doneStr]), (valueKey, BValue.bytes [54])] = false →
      evalLoop [49] ([(statusKey, BValue.list [BValue.bytes doneStr]), (valueKey, BValue.bytes [54])] :: [])
          evalResultDefault =
        evalLoop [49] [] (mergeFrame evalResultDefault
          [(statusKey, BValue.list [BValue.bytes doneStr]), (valueKey, BValue.bytes [54])]).1) :=
  c10_missing_id_processed [49]
    [(statusKey, BValue.list [BValue.bytes doneStr]), (valueKey, BValue.bytes [54])] []
    evalResultDefault rfl

/-! ## Claim C6: `close` always succeeds and clears the session -/

/-- C6: `close` returns `Ok(())` whatever the send and read outcomes were
(they are ignored), the session is absent afterwards, and calling it with
no session is a no-op that also succeeds (idempotent). -/
theorem c6_close_always_succeeds (st : ClientState) (freshId : List Nat)
    (sendRes : Except NreplError Unit) (readRes : Except NreplError Msg) :
    (closeFn st freshId sendRes readRes).2.2 = .ok () ∧
    (closeFn st freshId sendRes readRes).1.session = none ∧
    closeFn ⟨none⟩ freshId sendRes readRes = (⟨none⟩, none, .ok ()) := by
  rcases st with ⟨_ | s⟩ <;> simp [closeFn]

/-! ## Claim C9: lazy clone before eval -/

/-- C9: with no tracked session, `eval_with_timeout` performs exactly one
clone request before the eval request — the wire carries the two distinct
requests, clone first; with a session already tracked, only the eval
request (op `"eval"`, never `"clone"`) is sent. -/
theorem c9_lazy_clone_before_eval (st : ClientState) (code evalId cloneId : List Nat)
    (resp : Msg) (sb : List Nat) (frames : List Msg)
    (h0 : st.session = none)
    (h1 : mget resp newSessionKey = some (.bytes sb)) :
    (evalWithTimeout st code evalId cloneId (.ok resp) frames).2.1 =
      [cloneMsg cloneId, buildEvalMsg ⟨some sb⟩ code evalId] ∧
    mget (cloneMsg cloneId) opKey = some (.bytes cloneStr) ∧
    mget (buildEvalMsg ⟨some sb⟩ code evalId) opKey = some (.bytes evalStr) ∧
    cloneMsg cloneId ≠ buildEvalMsg ⟨some sb⟩ code evalId ∧
    (∀ (s c2 i2 : List Nat) (cr : Except NreplError Msg) (fr : List Msg),
      (evalWithTimeout ⟨some s⟩ c2 i2 cloneId cr fr).2.1 = [buildEvalMsg ⟨some s⟩ c2 i2] ∧
      mget (buildEvalMsg ⟨some s⟩ c2 i2) opKey = some (.bytes evalStr)) := by
  refine ⟨?_, ?_, ?_, ?_, ?_⟩
  · rcases st with ⟨sess⟩
    simp only at h0
    subst h0
    simp only [evalWithTimeout, cloneSession, h1]
    rcases evalLoop evalId frames evalResultDefault with r | r <;> simp
  · simp [cloneMsg, mget]
  · simp [buildEvalMsg, mget]
  · intro hEq
    simp [cloneMsg, buildEvalMsg, cloneStr, evalStr] at hEq
  · intro s c2 i2 cr fr
    constructor
    · simp [evalWithTimeout]
    · simp [buildEvalMsg, mget]

/-- Witness for C9: from the no-session state, with a clone response
carrying `new-session`, the wire carries the clone request then the eval
request. -/
theorem c9_lazy_clone_before_eval_witness :
    (evalWithTimeout ⟨none⟩ [43] [50] [49] (.ok [(newSessionKey, BValue.bytes [115])])
        []).2.1 =
      [cloneMsg [49], buildEvalMsg ⟨some [115]⟩ [43] [50]] ∧
    mget (cloneMsg [49]) opKey = some (.bytes cloneStr) ∧
    mget (buildEvalMsg ⟨some [115]⟩ [43] [50]) opKey = some (.bytes evalStr) ∧
    cloneMsg [49] ≠ buildEvalMsg ⟨some [115]⟩ [43] [50] ∧
    (∀ (s c2 i2 : List Nat) (cr : Except NreplError Msg) (fr : List Msg),
      (evalWithTimeout ⟨some s⟩ c2 i2 [49] cr fr).2.1 = [buildEvalMsg ⟨some s⟩ c2 i2] ∧
      mget (buildEvalMsg ⟨some s⟩ c2 i2) opKey = some (.bytes evalStr)) :=
  c9_lazy_clone_before_eval ⟨none⟩ [43] [50] [49] [(newSessionKey, BValue.bytes [115])]
    [115] [] rfl rfl
